import Mathlib

/-!
Verification of the flatdata `MultiVector` writer (`src/flatdata-rs/lib/src/multivector.rs`)
and its read-back path, as a shallow embedding.

Bytes are modelled as `Nat`, machine sizes as `Nat`. The backing storage sink, the
offset-index vector (`ExternalVector`), the record builder produced by
`VariadicStruct::create_mut`, the padding constant `memory::PADDING_SIZE`, and the
reader (`MultiArrayView`) are collaborators whose code is not part of the verified
subsystem's single source file; they are modelled from the specification and are
marked as such below. The writer itself (`new`, `grow`, `flush`, `add_to_index`,
`close`) is translated directly from the source.

The padding size is kept as an explicit parameter `pad` everywhere; the spec only
says it is a fixed positive constant.
-/

namespace Flatdata

/-- Modelled from the spec: the backing storage data sink (`storage::ResourceHandle`,
not under `src/`). It records the bytes written so far; `failNext` models the
nondeterministic possibility that the next `write` call returns an IO error. -/
structure Sink where
  written : List Nat
  failNext : Bool
deriving DecidableEq, Repr

/-- Modelled from the spec: `Sink.write(bytes) -> Result<(), IOError>`; on success the
bytes are appended to the resource. -/
def Sink.write (k : Sink) (bs : List Nat) : Except Unit Sink :=
  if k.failNext then Except.error ()
  else Except.ok { written := k.written ++ bs, failNext := false }

/-- The in-memory state of a `MultiVector` writer: the offset-index entries appended so
far (the `ExternalVector` index is modelled as the list of its entries), the in-memory
data buffer `data` (which, as in the source, includes the trailing padding region),
the backing data sink, and `size_flushed`. -/
structure MVState where
  index : List Nat
  data : List Nat
  sink : Sink
  size_flushed : Nat
deriving DecidableEq, Repr

namespace MultiVector

/-- The flush threshold used in `grow`: `1024 * 1024 * 32` bytes (from the source). -/
def HWM : Nat := 1024 * 1024 * 32

/-- `MultiVector::new`: empty index, data buffer containing only the padding region
(`vec![0; memory::PADDING_SIZE]`), nothing flushed. -/
def new (pad : Nat) : MVState :=
  { index := [], data := List.replicate pad 0, sink := ⟨[], false⟩, size_flushed := 0 }

/-- `MultiVector::flush`: write the buffer minus the trailing padding region to the
data sink, advance `size_flushed` by the number of bytes written, reset the buffer to
the padding region. Mirrors `&mut self -> io::Result<()>`: the returned state is the
post-call `self`; on a write error the early return (`?`) leaves `self` untouched. -/
def flush (pad : Nat) (s : MVState) : MVState × Except Unit Unit :=
  match s.sink.write (s.data.take (s.data.length - pad)) with
  | Except.error e => (s, Except.error e)
  | Except.ok k =>
      ({ index := s.index,
         data := List.replicate pad 0,
         sink := k,
         size_flushed := s.size_flushed + (s.data.length - pad) }, Except.ok ())

/-- `MultiVector::add_to_index`: grow the offset index by one entry and set it to
`size_flushed + data.len() - PADDING_SIZE`. The `ExternalVector` index is modelled
from the spec as the pure sequence of its entries, so the operation cannot fail here. -/
def add_to_index (pad : Nat) (s : MVState) : MVState :=
  { s with index := s.index ++ [s.size_flushed + (s.data.length - pad)] }

/-- `MultiVector::grow` with the threshold as a parameter: if `data.len()` exceeds the
threshold, flush first (propagating a failure), then append an index entry. The
returned record builder is modelled separately by `addRecord`. -/
def growWith (pad hwm : Nat) (s : MVState) : MVState × Except Unit Unit :=
  if s.data.length > hwm then
    match flush pad s with
    | (s', Except.error e) => (s', Except.error e)
    | (s', Except.ok ()) => (add_to_index pad s', Except.ok ())
  else
    (add_to_index pad s, Except.ok ())

/-- `MultiVector::grow` as in the source, with its fixed `32 MiB` threshold. -/
def grow (pad : Nat) (s : MVState) : MVState × Except Unit Unit :=
  growWith pad HWM s

/-- Modelled from the spec: the record builder returned by `grow`
(`define_variadic_struct` codegen, not under `src/`). Appending a record writes the
1-byte tag followed by the payload at the logical end of the buffer, keeping the
trailing padding region at the end. -/
def addRecord (pad : Nat) (t : Nat) (p : List Nat) (s : MVState) : MVState :=
  { s with data := s.data.take (s.data.length - pad) ++ t :: p ++ List.replicate pad 0 }

/-- `MultiVector::close`: append the sentinel index entry, flush the remaining data,
finalize the index and seal the data resource, returning the read view as the pair
(index entries, data bytes). The index finalization and the data seal are modelled
from the spec as returning the accumulated entries and bytes. -/
def close (pad : Nat) (s : MVState) : Except Unit (List Nat × List Nat) :=
  match flush pad (add_to_index pad s) with
  | (_, Except.error e) => Except.error e
  | (s2, Except.ok ()) => Except.ok (s2.index, s2.sink.written)

end MultiVector

/-- The logical end of the data stream: `size_flushed + data.len() - PADDING_SIZE`. -/
def logicalEnd (pad : Nat) (s : MVState) : Nat :=
  s.size_flushed + (s.data.length - pad)

/-- The full logical data stream: the bytes already on storage followed by the logical
(non-padding) portion of the in-memory buffer. -/
def absData (pad : Nat) (s : MVState) : List Nat :=
  s.sink.written ++ s.data.take (s.data.length - pad)

/-- One externally triggerable writer operation: start a new bucket (`grow`), append a
tagged record through the builder (`put`), or an internal buffer flush (`flush`). -/
inductive WOp where
  | grow : WOp
  | put : Nat → List Nat → WOp
  | flush : WOp
deriving DecidableEq, Repr

/-- One step of a writer execution. -/
def step (pad hwm : Nat) (s : MVState) : WOp → MVState × Except Unit Unit
  | WOp.grow => MultiVector.growWith pad hwm s
  | WOp.put t p => (MultiVector.addRecord pad t p s, Except.ok ())
  | WOp.flush => MultiVector.flush pad s

/-- Run a sequence of writer operations, stopping at the first error. -/
def runOps (pad hwm : Nat) (s : MVState) : List WOp → MVState × Except Unit Unit
  | [] => (s, Except.ok ())
  | op :: ops =>
      match step pad hwm s op with
      | (s', Except.error e) => (s', Except.error e)
      | (s', Except.ok ()) => runOps pad hwm s' ops

/-- API well-formedness of an operation sequence: records can only be appended through
a builder returned by `grow`, so no `put` may occur before the first `grow`. -/
def noPutBeforeGrow : List WOp → Bool
  | [] => true
  | WOp.grow :: _ => true
  | WOp.put _ _ :: _ => false
  | WOp.flush :: ops => noPutBeforeGrow ops

/-- Number of `grow` operations (buckets started) in a sequence. -/
def growCount : List WOp → Nat
  | [] => 0
  | WOp.grow :: ops => growCount ops + 1
  | _ :: ops => growCount ops

/-- The record bytes a sequence of operations appends to the logical data stream. -/
def opsData : List WOp → List Nat
  | [] => []
  | WOp.grow :: ops => opsData ops
  | WOp.put t p :: ops => t :: p ++ opsData ops
  | WOp.flush :: ops => opsData ops

/-- The offset-index entries a sequence of operations appends, when started at logical
end `base`. -/
def opsIndex (base : Nat) : List WOp → List Nat
  | [] => []
  | WOp.grow :: ops => base :: opsIndex base ops
  | WOp.put _ p :: ops => opsIndex (base + (1 + p.length)) ops
  | WOp.flush :: ops => opsIndex base ops

/-- Reachability invariant of writer states: the buffer always contains the padding
region, the sink is healthy, `size_flushed` counts the bytes on storage, and the index
entries are non-decreasing and bounded by the logical end of the stream. -/
def Inv (pad : Nat) (s : MVState) : Prop :=
  pad ≤ s.data.length ∧ s.sink.failNext = false ∧
    s.sink.written.length = s.size_flushed ∧
    s.index.Chain' (· ≤ ·) ∧ ∀ e ∈ s.index, e ≤ logicalEnd pad s

/-- Wire encoding of a single record: the 1-byte tag followed by the payload bytes
(spec section 3, Data Stream). -/
def encRecord (r : Nat × List Nat) : List Nat := r.1 :: r.2

/-- Wire encoding of one bucket: its records, concatenated. -/
def encBucket (b : List (Nat × List Nat)) : List Nat := (b.map encRecord).flatten

/-- The finalized data stream for a sequence of buckets. -/
def refData (bs : List (List (Nat × List Nat))) : List Nat := (bs.map encBucket).flatten

/-- The finalized offset index for a sequence of buckets starting at offset `base`:
one entry per bucket plus the final sentinel. -/
def refIndexFrom (base : Nat) : List (List (Nat × List Nat)) → List Nat
  | [] => [base]
  | b :: bs => base :: refIndexFrom (base + (encBucket b).length) bs

/-- Modelled from the spec: the read-side item iteration protocol of `MultiArrayView`
(not under `src/`): read one tag byte, look up the variant's fixed payload size, take
that many payload bytes, repeat until the slice is exhausted; an unrecognized tag or a
truncated record is a corruption error. -/
def decodeRecords (S : Nat → Option Nat) : List Nat → Option (List (Nat × List Nat))
  | [] => some []
  | t :: rest =>
      match S t with
      | none => none
      | some n =>
          if n ≤ rest.length then
            match decodeRecords S (rest.drop n) with
            | none => none
            | some rs => some ((t, rest.take n) :: rs)
          else none
termination_by l => l.length
decreasing_by simp; omega

/-- Modelled from the spec: `MultiArrayView::len`: the number of buckets is the number
of index entries minus the sentinel. -/
def viewLen (index : List Nat) : Nat := index.length - 1

/-- Modelled from the spec: reading the whole view bucket-by-bucket: bucket `i` is the
data slice between index entries `i` and `i + 1`, decoded as tagged records. -/
def decodeView (S : Nat → Option Nat) :
    List Nat → List Nat → Option (List (List (Nat × List Nat)))
  | [], _ => none
  | [_], _ => some []
  | a :: b :: rest, d =>
      match decodeRecords S ((d.take b).drop a), decodeView S (b :: rest) d with
      | some r, some rs => some (r :: rs)
      | _, _ => none

/-- The writer operations that store one bucket: `grow`, then one `put` per record. -/
def bucketOps (b : List (Nat × List Nat)) : List WOp :=
  WOp.grow :: b.map (fun r => WOp.put r.1 r.2)

/-- The writer operations that store a sequence of buckets. -/
def writeOps (bs : List (List (Nat × List Nat))) : List WOp :=
  (bs.map bucketOps).flatten

/-- Well-formed buckets: every record's tag is a recognized variant whose fixed
encoded size matches the record's payload length. -/
def WFBuckets (S : Nat → Option Nat) (bs : List (List (Nat × List Nat))) : Prop :=
  ∀ b ∈ bs, ∀ r ∈ b, S r.1 = some r.2.length

/-- Modelled from the spec: the fixed-size codec of the test struct `A` (two 16-bit
fields bit-packed into 4 bytes, little-endian): encoding of field values `(x, y)`. -/
def encodeA (x y : Nat) : List Nat :=
  [x % 256, x / 256 % 256, y % 256, y / 256 % 256]

/-- Modelled from the spec: decoding the field values `(x, y)` of struct `A` from its
4 payload bytes. -/
def decodeA (p : List Nat) : Nat × Nat :=
  (p.getD 0 0 + 256 * p.getD 1 0, p.getD 2 0 + 256 * p.getD 3 0)

/-- The tag-to-payload-size table of the single-variant set used in the source's test:
tag 0 is struct `A` with 4 payload bytes; every other tag is unrecognized. -/
def tagSizeA : Nat → Option Nat := fun t => if t = 0 then some 4 else none

open MultiVector

theorem Inv_new (pad : Nat) : Inv pad (new pad) := by
  refine ⟨by simp [new], rfl, rfl, by simp [new], by simp [new]⟩

theorem length_take_sub (pad : Nat) (l : List Nat) :
    (l.take (l.length - pad)).length = l.length - pad := by
  simp [List.length_take]

theorem flush_eq (pad : Nat) (s : MVState) (hf : s.sink.failNext = false) :
    flush pad s =
      ({ index := s.index,
         data := List.replicate pad 0,
         sink := ⟨s.sink.written ++ s.data.take (s.data.length - pad), false⟩,
         size_flushed := s.size_flushed + (s.data.length - pad) }, Except.ok ()) := by
  simp [flush, Sink.write, hf]

theorem logicalEnd_flush (pad : Nat) (s : MVState) :
    logicalEnd pad (flush pad s).1 = logicalEnd pad s := by
  by_cases hf : s.sink.failNext
  · simp [flush, Sink.write, hf]
  · simp only [Bool.not_eq_true] at hf
    rw [flush_eq pad s hf]
    simp [logicalEnd]

theorem add_to_index_eq (pad : Nat) (s : MVState) :
    add_to_index pad s = { s with index := s.index ++ [logicalEnd pad s] } := rfl

theorem flushStep_spec (pad : Nat) (s : MVState) (h : Inv pad s) :
    (flush pad s).2 = Except.ok () ∧
    Inv pad (flush pad s).1 ∧
    absData pad (flush pad s).1 = absData pad s ∧
    (flush pad s).1.index = s.index ∧
    logicalEnd pad (flush pad s).1 = logicalEnd pad s := by
  obtain ⟨hpad, hf, hlen, hchain, hbound⟩ := h
  have hle := logicalEnd_flush pad s
  rw [flush_eq pad s hf] at hle ⊢
  refine ⟨rfl, ⟨by simp, rfl, ?_, hchain, ?_⟩, ?_, rfl, hle⟩
  · simp [length_take_sub pad s.data, hlen]
  · intro e he
    exact le_trans (hbound e he) (le_of_eq hle.symm)
  · simp [absData]

theorem addRecord_data_eq (pad t : Nat) (p : List Nat) (s : MVState) :
    (addRecord pad t p s).data
      = (s.data.take (s.data.length - pad) ++ t :: p) ++ List.replicate pad 0 := by
  simp [addRecord]

theorem addRecord_spec (pad t : Nat) (p : List Nat) (s : MVState) (h : Inv pad s) :
    Inv pad (addRecord pad t p s) ∧
    absData pad (addRecord pad t p s) = absData pad s ++ t :: p ∧
    (addRecord pad t p s).index = s.index ∧
    (addRecord pad t p s).sink = s.sink ∧
    (addRecord pad t p s).size_flushed = s.size_flushed ∧
    logicalEnd pad (addRecord pad t p s) = logicalEnd pad s + (1 + p.length) := by
  obtain ⟨hpad, hf, hlen, hchain, hbound⟩ := h
  have hX : (s.data.take (s.data.length - pad)).length = s.data.length - pad :=
    length_take_sub pad s.data
  have hdlen : (addRecord pad t p s).data.length
      = (s.data.length - pad) + (1 + p.length) + pad := by
    rw [addRecord_data_eq]; simp [hX]; omega
  have htake : (addRecord pad t p s).data.take ((addRecord pad t p s).data.length - pad)
      = s.data.take (s.data.length - pad) ++ t :: p := by
    rw [addRecord_data_eq]
    have hlen2 : (s.data.take (s.data.length - pad) ++ t :: p).length
        = (addRecord pad t p s).data.length - pad := by
      simp [hX, hdlen]; omega
    exact List.take_left' hlen2
  have hle : logicalEnd pad (addRecord pad t p s) = logicalEnd pad s + (1 + p.length) := by
    simp [logicalEnd, addRecord, hdlen]; omega
  refine ⟨⟨by omega, hf, hlen, hchain, ?_⟩, ?_, rfl, rfl, rfl, hle⟩
  · intro e he
    exact le_trans (hbound e he) (by omega)
  · have habs : absData pad (addRecord pad t p s)
        = s.sink.written ++
          (addRecord pad t p s).data.take ((addRecord pad t p s).data.length - pad) := rfl
    rw [habs, htake, absData, List.append_assoc]

theorem add_to_index_spec (pad : Nat) (s : MVState) (h : Inv pad s) :
    Inv pad (add_to_index pad s) ∧
    absData pad (add_to_index pad s) = absData pad s ∧
    (add_to_index pad s).index = s.index ++ [logicalEnd pad s] ∧
    logicalEnd pad (add_to_index pad s) = logicalEnd pad s := by
  obtain ⟨hpad, hf, hlen, hchain, hbound⟩ := h
  refine ⟨⟨hpad, hf, hlen, ?_, ?_⟩, rfl, rfl, rfl⟩
  · show List.Chain' (· ≤ ·) (s.index ++ [logicalEnd pad s])
    rw [List.chain'_append]
    refine ⟨hchain, List.chain'_singleton _, ?_⟩
    intro x hx y hy
    simp at hy
    subst hy
    cases hxl : s.index.getLast? with
    | none => simp [hxl] at hx
    | some a =>
        simp [hxl] at hx
        subst hx
        exact hbound a (List.mem_of_getLast?_eq_some hxl)
  · intro e he
    simp [add_to_index, logicalEnd] at he ⊢
    rcases he with he | he
    · exact hbound e he
    · omega

theorem growWith_spec (pad hwm : Nat) (s : MVState) (h : Inv pad s) :
    (growWith pad hwm s).2 = Except.ok () ∧
    Inv pad (growWith pad hwm s).1 ∧
    absData pad (growWith pad hwm s).1 = absData pad s ∧
    (growWith pad hwm s).1.index = s.index ++ [logicalEnd pad s] ∧
    logicalEnd pad (growWith pad hwm s).1 = logicalEnd pad s := by
  by_cases hcond : s.data.length > hwm
  · obtain ⟨hok, hinv, habs, hidx, hle⟩ := flushStep_spec pad s h
    obtain ⟨hinv2, habs2, hidx2, hle2⟩ := add_to_index_spec pad (flush pad s).1 hinv
    have hflush : flush pad s = ((flush pad s).1, Except.ok ()) := by
      cases hstep : flush pad s with
      | mk a b => rw [hstep] at hok; simp at hok; simp [hok]
    have hgw : growWith pad hwm s = (add_to_index pad (flush pad s).1, Except.ok ()) := by
      rw [growWith, if_pos hcond, hflush]
    rw [hgw]
    exact ⟨rfl, hinv2, by rw [habs2, habs], by rw [hidx2, hidx, hle], by rw [hle2, hle]⟩
  · obtain ⟨hinv2, habs2, hidx2, hle2⟩ := add_to_index_spec pad s h
    have hgw : growWith pad hwm s = (add_to_index pad s, Except.ok ()) := by
      rw [growWith, if_neg hcond]
    rw [hgw]
    exact ⟨rfl, hinv2, habs2, hidx2, hle2⟩

theorem runOps_spec (pad hwm : Nat) (ops : List WOp) :
    ∀ s : MVState, Inv pad s →
      (runOps pad hwm s ops).2 = Except.ok () ∧
      Inv pad (runOps pad hwm s ops).1 ∧
      absData pad (runOps pad hwm s ops).1 = absData pad s ++ opsData ops ∧
      (runOps pad hwm s ops).1.index = s.index ++ opsIndex (logicalEnd pad s) ops ∧
      logicalEnd pad (runOps pad hwm s ops).1 = logicalEnd pad s + (opsData ops).length := by
  induction ops with
  | nil =>
      intro s h
      refine ⟨rfl, h, by simp [runOps, opsData], by simp [runOps, opsIndex], by
        simp [runOps, opsData]⟩
  | cons op ops ih =>
      intro s h
      cases op with
      | grow =>
          obtain ⟨hok, hinv, habs, hidx, hle⟩ := growWith_spec pad hwm s h
          have hstep : step pad hwm s WOp.grow = ((growWith pad hwm s).1, Except.ok ()) := by
            show growWith pad hwm s = _
            cases hgw : growWith pad hwm s with
            | mk a b => rw [hgw] at hok; simp at hok; simp [hok]
          have hrun : runOps pad hwm s (WOp.grow :: ops)
              = runOps pad hwm (growWith pad hwm s).1 ops := by
            rw [runOps, hstep]
          obtain ⟨ih1, ih2, ih3, ih4, ih5⟩ := ih (growWith pad hwm s).1 hinv
          rw [hrun]
          refine ⟨ih1, ih2, ?_, ?_, ?_⟩
          · rw [ih3, habs]
            simp [opsData]
          · rw [ih4, hidx, hle]
            simp [opsIndex]
          · rw [ih5, hle]
            simp [opsData]
      | put t p =>
          obtain ⟨hinv, habs, hidx, hsink, hsz, hle⟩ := addRecord_spec pad t p s h
          have hrun : runOps pad hwm s (WOp.put t p :: ops)
              = runOps pad hwm (addRecord pad t p s) ops := rfl
          obtain ⟨ih1, ih2, ih3, ih4, ih5⟩ := ih (addRecord pad t p s) hinv
          rw [hrun]
          refine ⟨ih1, ih2, ?_, ?_, ?_⟩
          · rw [ih3, habs]
            simp [opsData]
          · rw [ih4, hidx, hle]
            simp [opsIndex]
          · rw [ih5, hle]
            simp [opsData]
            omega
      | flush =>
          obtain ⟨hok, hinv, habs, hidx, hle⟩ := flushStep_spec pad s h
          have hstep : step pad hwm s WOp.flush = ((flush pad s).1, Except.ok ()) := by
            show flush pad s = _
            cases hfl : flush pad s with
            | mk a b => rw [hfl] at hok; simp at hok; simp [hok]
          have hrun : runOps pad hwm s (WOp.flush :: ops)
              = runOps pad hwm (flush pad s).1 ops := by
            rw [runOps, hstep]
          obtain ⟨ih1, ih2, ih3, ih4, ih5⟩ := ih (flush pad s).1 hinv
          rw [hrun]
          refine ⟨ih1, ih2, ?_, ?_, ?_⟩
          · rw [ih3, habs]
            simp [opsData]
          · rw [ih4, hidx, hle]
            simp [opsIndex]
          · rw [ih5, hle]
            simp [opsData]

theorem close_spec (pad : Nat) (s : MVState) (h : Inv pad s) :
    close pad s = Except.ok (s.index ++ [logicalEnd pad s], absData pad s) ∧
    (absData pad s).length = logicalEnd pad s := by
  obtain ⟨hpad, hf, hlen, hchain, hbound⟩ := h
  have hf2 : (add_to_index pad s).sink.failNext = false := hf
  have hdata : (add_to_index pad s).data = s.data := rfl
  have hwr : (add_to_index pad s).sink.written = s.sink.written := rfl
  constructor
  · rw [close, flush_eq pad (add_to_index pad s) hf2]
    rw [add_to_index_eq]
    rfl
  · rw [absData, List.length_append, length_take_sub pad s.data, hlen, logicalEnd]


theorem opsData_append (xs ys : List WOp) :
    opsData (xs ++ ys) = opsData xs ++ opsData ys := by
  induction xs with
  | nil => simp [opsData]
  | cons op xs ih =>
      cases op <;> simp [opsData, ih]

theorem opsIndex_append (xs ys : List WOp) :
    ∀ base, opsIndex base (xs ++ ys)
      = opsIndex base xs ++ opsIndex (base + (opsData xs).length) ys := by
  induction xs with
  | nil => intro base; simp [opsIndex, opsData]
  | cons op xs ih =>
      intro base
      cases op with
      | grow => simp [opsIndex, opsData, ih base]
      | put t p =>
          simp [opsIndex, opsData, ih]
          congr 1
          omega
      | flush => simp [opsIndex, opsData, ih base]

theorem growCount_append (xs ys : List WOp) :
    growCount (xs ++ ys) = growCount xs + growCount ys := by
  induction xs with
  | nil => simp [growCount]
  | cons op xs ih =>
      cases op with
      | grow => simp [growCount, ih]; omega
      | put t p => simp [growCount, ih]
      | flush => simp [growCount, ih]

theorem opsData_map_put (b : List (Nat × List Nat)) :
    opsData (b.map (fun r => WOp.put r.1 r.2)) = encBucket b := by
  induction b with
  | nil => simp [opsData, encBucket]
  | cons r b ih => simp [opsData, encBucket, encRecord, ih]

theorem opsIndex_map_put (b : List (Nat × List Nat)) :
    ∀ base, opsIndex base (b.map (fun r => WOp.put r.1 r.2)) = [] := by
  induction b with
  | nil => intro base; simp [opsIndex]
  | cons r b ih => intro base; simp [opsIndex, ih]

theorem growCount_map_put (b : List (Nat × List Nat)) :
    growCount (b.map (fun r => WOp.put r.1 r.2)) = 0 := by
  induction b with
  | nil => simp [growCount]
  | cons r b ih => simp [growCount, ih]

theorem opsData_bucketOps (b : List (Nat × List Nat)) :
    opsData (bucketOps b) = encBucket b := by
  simp [bucketOps, opsData, opsData_map_put]

theorem opsIndex_bucketOps (b : List (Nat × List Nat)) (base : Nat) :
    opsIndex base (bucketOps b) = [base] := by
  simp [bucketOps, opsIndex, opsIndex_map_put]

theorem opsData_writeOps (bs : List (List (Nat × List Nat))) :
    opsData (writeOps bs) = refData bs := by
  induction bs with
  | nil => simp [writeOps, opsData, refData]
  | cons b bs ih =>
      simp [writeOps, refData] at ih ⊢
      rw [opsData_append, opsData_bucketOps, ih]

theorem opsIndex_writeOps (bs : List (List (Nat × List Nat))) :
    ∀ base, opsIndex base (writeOps bs) ++ [base + (refData bs).length]
      = refIndexFrom base bs := by
  induction bs with
  | nil => intro base; simp [writeOps, opsIndex, refData, refIndexFrom]
  | cons b bs ih =>
      intro base
      have h1 : writeOps (b :: bs) = bucketOps b ++ writeOps bs := by
        simp [writeOps]
      have h2 : refData (b :: bs) = encBucket b ++ refData bs := by
        simp [refData]
      rw [h1, opsIndex_append, opsIndex_bucketOps, opsData_bucketOps, h2, refIndexFrom]
      rw [List.singleton_append, List.cons_append, List.length_append]
      rw [show base + ((encBucket b).length + (refData bs).length)
            = (base + (encBucket b).length) + (refData bs).length by omega]
      rw [ih]

theorem growCount_writeOps (bs : List (List (Nat × List Nat))) :
    growCount (writeOps bs) = bs.length := by
  induction bs with
  | nil => simp [writeOps, growCount]
  | cons b bs ih =>
      have h1 : writeOps (b :: bs) = bucketOps b ++ writeOps bs := by
        simp [writeOps]
      rw [h1, growCount_append, ih]
      simp [bucketOps, growCount, growCount_map_put]
      omega

theorem refIndexFrom_length (bs : List (List (Nat × List Nat))) :
    ∀ base, (refIndexFrom base bs).length = bs.length + 1 := by
  induction bs with
  | nil => intro base; simp [refIndexFrom]
  | cons b bs ih => intro base; simp [refIndexFrom, ih]

theorem decodeRecords_encBucket (S : Nat → Option Nat) (b : List (Nat × List Nat))
    (h : ∀ r ∈ b, S r.1 = some r.2.length) :
    decodeRecords S (encBucket b) = some b := by
  induction b with
  | nil => simp [encBucket, decodeRecords]
  | cons r b ih =>
      obtain ⟨t, p⟩ := r
      have ht : S t = some p.length := h (t, p) (by simp)
      have hb : ∀ r ∈ b, S r.1 = some r.2.length := fun r hr => h r (by simp [hr])
      have henc : encBucket ((t, p) :: b) = t :: (p ++ encBucket b) := by
        simp [encBucket, encRecord]
      rw [henc]
      simp only [decodeRecords, ht]
      rw [if_pos (by simp)]
      rw [List.drop_left, ih hb, List.take_left]

theorem refIndexFrom_head (bs : List (List (Nat × List Nat))) (base : Nat) :
    ∃ tl, refIndexFrom base bs = base :: tl := by
  cases bs with
  | nil => exact ⟨[], rfl⟩
  | cons b bs => exact ⟨_, rfl⟩

theorem decodeView_refIndexFrom (S : Nat → Option Nat) (bs : List (List (Nat × List Nat))) :
    ∀ pre : List Nat, WFBuckets S bs →
      decodeView S (refIndexFrom pre.length bs) (pre ++ refData bs) = some bs := by
  induction bs with
  | nil =>
      intro pre _
      simp [refIndexFrom, decodeView]
  | cons b bs ih =>
      intro pre h
      have hb : ∀ r ∈ b, S r.1 = some r.2.length := fun r hr => h b (by simp) r hr
      have hbs : WFBuckets S bs := fun b' hb' r hr => h b' (by simp [hb']) r hr
      obtain ⟨tl, htl⟩ := refIndexFrom_head bs (pre.length + (encBucket b).length)
      have hidx : refIndexFrom pre.length (b :: bs)
          = pre.length :: (pre.length + (encBucket b).length) :: tl := by
        rw [refIndexFrom, htl]
      have hdata : pre ++ refData (b :: bs) = (pre ++ encBucket b) ++ refData bs := by
        simp [refData]
      have hslice : ((pre ++ refData (b :: bs)).take
            (pre.length + (encBucket b).length)).drop pre.length = encBucket b := by
        rw [hdata, List.take_left' (by simp), List.drop_left]
      have hrec : decodeView S ((pre.length + (encBucket b).length) :: tl)
          (pre ++ refData (b :: bs)) = some bs := by
        rw [← htl, hdata]
        have hih := ih (pre ++ encBucket b) hbs
        rwa [List.length_append] at hih
      rw [hidx]
      simp only [decodeView]
      rw [hslice, decodeRecords_encBucket S b hb, hrec]

theorem run_close_eq (pad hwm : Nat) (ops : List WOp) :
    close pad (runOps pad hwm (new pad) ops).1
      = Except.ok (opsIndex 0 ops ++ [(opsData ops).length], opsData ops) := by
  obtain ⟨hok, hinv, habs, hidx, hle⟩ := runOps_spec pad hwm ops (new pad) (Inv_new pad)
  have habs0 : absData pad (new pad) = [] := by
    simp [absData, new]
  have hle0 : logicalEnd pad (new pad) = 0 := by
    simp [logicalEnd, new]
  have hidx0 : (new pad).index = [] := rfl
  obtain ⟨hcl, hlen⟩ := close_spec pad _ hinv
  rw [hcl, habs, habs0, hidx, hidx0, hle0]
  rw [habs, habs0] at hlen
  rw [hle, hle0] at hlen
  simp at hlen ⊢
  omega

theorem runOps_cons_ok (pad hwm : Nat) (s s' : MVState) (op : WOp) (ops : List WOp)
    (h : step pad hwm s op = (s', Except.ok ())) :
    runOps pad hwm s (op :: ops) = runOps pad hwm s' ops := by
  rw [runOps, h]

theorem runOps_puts (pad hwm t : Nat) (p : List Nat) (n : Nat) :
    ∀ s : MVState, runOps pad hwm s (List.replicate n (WOp.put t p))
      = ((addRecord pad t p)^[n] s, Except.ok ()) := by
  induction n with
  | zero => intro s; simp [runOps]
  | succ n ih =>
      intro s
      rw [List.replicate_succ]
      have hrun : runOps pad hwm s (WOp.put t p :: List.replicate n (WOp.put t p))
          = runOps pad hwm (addRecord pad t p s) (List.replicate n (WOp.put t p)) := rfl
      rw [hrun, ih, Function.iterate_succ_apply]

theorem addRecord_iterate_facts (pad t : Nat) (p : List Nat) :
    ∀ (n : Nat) (s : MVState), pad ≤ s.data.length →
      ((addRecord pad t p)^[n] s).data.length = s.data.length + n * (1 + p.length) ∧
      ((addRecord pad t p)^[n] s).sink = s.sink ∧
      ((addRecord pad t p)^[n] s).size_flushed = s.size_flushed := by
  intro n
  induction n with
  | zero => intro s h; simp
  | succ n ih =>
      intro s h
      have hlen : (addRecord pad t p s).data.length = s.data.length + (1 + p.length) := by
        rw [addRecord_data_eq]
        simp
        omega
      obtain ⟨ih1, ih2, ih3⟩ := ih (addRecord pad t p s) (by omega)
      rw [Function.iterate_succ_apply]
      refine ⟨?_, ih2, ih3⟩
      rw [ih1, hlen]
      ring

theorem opsIndex_length (ops : List WOp) :
    ∀ base, (opsIndex base ops).length = growCount ops := by
  induction ops with
  | nil => intro base; simp [opsIndex, growCount]
  | cons op ops ih =>
      intro base
      cases op with
      | grow => simp [opsIndex, growCount, ih]
      | put t p => simp [opsIndex, growCount, ih]
      | flush => simp [opsIndex, growCount, ih]

theorem noPut_head (ops : List WOp) (h : noPutBeforeGrow ops = true) :
    ∀ base, (opsData ops = [] ∧ opsIndex base ops = []) ∨
      (opsIndex base ops).head? = some base := by
  induction ops with
  | nil => intro base; left; exact ⟨rfl, rfl⟩
  | cons op ops ih =>
      cases op with
      | grow => intro base; right; simp [opsIndex]
      | put t p => simp [noPutBeforeGrow] at h
      | flush =>
          intro base
          have h' : noPutBeforeGrow ops = true := h
          simpa [opsIndex, opsData] using ih h' base

/-- C2: `close` appends exactly one final offset-index entry equal to the current
logical end of the data stream (the sentinel, not a new bucket), then flushes the
remaining buffered data and finalizes both resources; consequently, after a writer
run containing `n` `grow` calls followed by `close`, the finalized index has `n + 1`
entries and its last entry equals the total number of logical data bytes on storage. -/
theorem C2_close_sentinel (pad : Nat) (ops : List WOp) :
    ∃ idx d, close pad (runOps pad HWM (new pad) ops).1 = Except.ok (idx, d) ∧
      idx = (runOps pad HWM (new pad) ops).1.index
          ++ [logicalEnd pad (runOps pad HWM (new pad) ops).1] ∧
      idx.length = growCount ops + 1 ∧
      idx.getLast? = some d.length := by
  obtain ⟨hok, hinv, habs, hidx, hle⟩ := runOps_spec pad HWM ops (new pad) (Inv_new pad)
  refine ⟨opsIndex 0 ops ++ [(opsData ops).length], opsData ops,
    run_close_eq pad HWM ops, ?_, ?_, ?_⟩
  · rw [hidx, hle]
    simp [new, logicalEnd]
  · simp [opsIndex_length]
  · simp

/-- C3: every call to `grow` appends exactly one entry to the offset index, equal to
`size_flushed + data.len() - padding` computed after any threshold-triggered flush
and before the returned builder appends any record bytes (which is also its value
before the flush). -/
theorem C3_grow_offset (pad : Nat) (s : MVState) (hf : s.sink.failNext = false) :
    (grow pad s).2 = Except.ok () ∧
    (grow pad s).1.index
      = s.index ++ [(grow pad s).1.size_flushed + ((grow pad s).1.data.length - pad)] ∧
    (grow pad s).1.index = s.index ++ [s.size_flushed + (s.data.length - pad)] := by
  by_cases hcond : s.data.length > HWM
  · have h1 : grow pad s
        = (add_to_index pad
            { index := s.index, data := List.replicate pad 0,
              sink := ⟨s.sink.written ++ s.data.take (s.data.length - pad), false⟩,
              size_flushed := s.size_flushed + (s.data.length - pad) }, Except.ok ()) := by
      rw [grow, growWith, if_pos hcond, flush_eq pad s hf]
    rw [h1]
    refine ⟨rfl, ?_, ?_⟩
    · simp [add_to_index]
    · simp [add_to_index]
  · have h1 : grow pad s = (add_to_index pad s, Except.ok ()) := by
      rw [grow, growWith, if_neg hcond]
    rw [h1]
    exact ⟨rfl, rfl, rfl⟩

/-- Witness for C3 at a concrete writer state. -/
theorem C3_grow_offset_witness :
    (Sink.mk [] false).failNext = false ∧
    (grow 3 (MVState.mk [0] [7, 1, 2, 0, 0, 0] ⟨[], false⟩ 0)).1.index = [0, 3] :=
  ⟨rfl, (C3_grow_offset 3 (MVState.mk [0] [7, 1, 2, 0, 0, 0] ⟨[], false⟩ 0) rfl).2.2⟩

/-- C5: a successful flush writes to the data sink exactly the buffer bytes excluding
the trailing padding region (no padding byte reaches storage), advances `size_flushed`
by exactly that byte count, and resets the buffer to the padding region alone. -/
theorem C5_flush_effect (pad : Nat) (s : MVState) (logical padRegion : List Nat)
    (hdata : s.data = logical ++ padRegion) (hplen : padRegion.length = pad)
    (hf : s.sink.failNext = false) :
    flush pad s
      = ({ index := s.index, data := List.replicate pad 0,
           sink := ⟨s.sink.written ++ logical, false⟩,
           size_flushed := s.size_flushed + logical.length }, Except.ok ()) := by
  have h1 : s.data.length - pad = logical.length := by
    rw [hdata]
    simp [hplen]
  have h2 : s.data.take (s.data.length - pad) = logical := by
    rw [h1, hdata]
    exact List.take_left' rfl
  rw [flush_eq pad s hf, h2, h1]

/-- Witness for C5 at a concrete writer state. -/
theorem C5_flush_effect_witness :
    ((MVState.mk [0] [5, 6, 0, 0] ⟨[1], false⟩ 3).data = [5, 6] ++ [0, 0] ∧
      ([0, 0] : List Nat).length = 2 ∧ (Sink.mk [1] false).failNext = false) ∧
    flush 2 (MVState.mk [0] [5, 6, 0, 0] ⟨[1], false⟩ 3)
      = ({ index := [0], data := List.replicate 2 0, sink := ⟨[1, 5, 6], false⟩,
           size_flushed := 5 }, Except.ok ()) :=
  ⟨⟨rfl, rfl, rfl⟩,
    C5_flush_effect 2 (MVState.mk [0] [5, 6, 0, 0] ⟨[1], false⟩ 3) [5, 6] [0, 0] rfl rfl rfl⟩

/-- C6: if the data sink's write fails during a flush, the error is propagated to the
caller of the triggering operation (`grow` or `close`) and the writer's in-memory
state — `size_flushed` and the data buffer — is exactly as before the failed write. -/
theorem C6_flush_failure (pad : Nat) (s : MVState) (hfail : s.sink.failNext = true) :
    flush pad s = (s, Except.error ()) ∧
    (s.data.length > HWM → grow pad s = (s, Except.error ())) ∧
    close pad s = Except.error () := by
  have h1 : flush pad s = (s, Except.error ()) := by
    simp [flush, Sink.write, hfail]
  refine ⟨h1, ?_, ?_⟩
  · intro hcond
    rw [grow, growWith, if_pos hcond, h1]
  · have h2 : flush pad (add_to_index pad s) = (add_to_index pad s, Except.error ()) := by
      simp [flush, Sink.write, add_to_index, hfail]
    simp [close, h2]

/-- Witness for C6 at a concrete writer state with a failing sink. -/
theorem C6_flush_failure_witness :
    (Sink.mk [] true).failNext = true ∧
    flush 2 (MVState.mk [] [4, 5, 0, 0] ⟨[], true⟩ 0)
      = (MVState.mk [] [4, 5, 0, 0] ⟨[], true⟩ 0, Except.error ()) ∧
    close 2 (MVState.mk [] [4, 5, 0, 0] ⟨[], true⟩ 0) = Except.error () := by
  have h := C6_flush_failure 2 (MVState.mk [] [4, 5, 0, 0] ⟨[], true⟩ 0) rfl
  exact ⟨rfl, h.1, h.2.2⟩

/-- C7: the finalized index and data are identical whether the writer runs with the
32 MiB threshold or with any other threshold (for instance one never reached):
mid-stream flushing is observably invisible in the final view. -/
theorem C7_flush_transparency (pad hwm : Nat) (ops : List WOp) :
    close pad (runOps pad HWM (new pad) ops).1
      = close pad (runOps pad hwm (new pad) ops).1 := by
  rw [run_close_eq, run_close_eq]

/-- C9: the logical end of the data stream, `size_flushed + data.len() - padding`, is
invariant under `flush`, so the offset recorded by `add_to_index` does not depend on
when flushes happen. -/
theorem C9_logicalEnd_flush_invariant (pad : Nat) (s : MVState) :
    logicalEnd pad (flush pad s).1 = logicalEnd pad s ∧
    (add_to_index pad (flush pad s).1).index
      = (flush pad s).1.index ++ [logicalEnd pad s] := by
  refine ⟨logicalEnd_flush pad s, ?_⟩
  rw [add_to_index_eq, logicalEnd_flush pad s]

/-- C10: closing a freshly created writer (no `grow` ever called) succeeds and yields
a finalized index with the single sentinel entry `0` and an empty data stream; the
read view has zero buckets, and the close-time flush writes zero data bytes. -/
theorem C10_close_empty (pad : Nat) :
    close pad (new pad) = Except.ok ([0], []) ∧
    viewLen [0] = 0 ∧
    ∀ S : Nat → Option Nat, decodeView S [0] [] = some [] := by
  refine ⟨?_, rfl, fun S => rfl⟩
  obtain ⟨hcl, _⟩ := close_spec pad (new pad) (Inv_new pad)
  rw [hcl]
  simp [new, logicalEnd, absData]

/-- C1: round-trip: for every sequence of buckets of tagged records (with recognized
tags and size-correct payloads), writing them via `grow`/`put`/`close` and reading the
resulting view back bucket-by-bucket reproduces exactly the same sequence of
(tag, payload) records per bucket, in order, and the view reports the right number of
buckets. -/
theorem C1_round_trip (S : Nat → Option Nat) (pad : Nat)
    (bs : List (List (Nat × List Nat))) (hwf : WFBuckets S bs) :
    close pad (runOps pad HWM (new pad) (writeOps bs)).1
      = Except.ok (refIndexFrom 0 bs, refData bs) ∧
    viewLen (refIndexFrom 0 bs) = bs.length ∧
    decodeView S (refIndexFrom 0 bs) (refData bs) = some bs := by
  refine ⟨?_, ?_, ?_⟩
  · rw [run_close_eq, opsData_writeOps]
    have h := opsIndex_writeOps bs 0
    rw [show (0 : Nat) + (refData bs).length = (refData bs).length by omega] at h
    rw [h]
  · simp [viewLen, refIndexFrom_length]
  · have h := decodeView_refIndexFrom S bs [] hwf
    simpa using h

/-- Witness for C1: the concrete scenario of the source's test: one bucket holding two
records of variant `A` with field values `(1,2)` then `(3,4)`; the view reports one
bucket, the index is `[0, 10]`, and the two decoded payloads give back `(1,2)` and
`(3,4)`. -/
theorem C1_round_trip_witness :
    (WFBuckets tagSizeA [[(0, encodeA 1 2), (0, encodeA 3 4)]] ∧
      close 8 (runOps 8 HWM (new 8)
          (writeOps [[(0, encodeA 1 2), (0, encodeA 3 4)]])).1
        = Except.ok (refIndexFrom 0 [[(0, encodeA 1 2), (0, encodeA 3 4)]],
            refData [[(0, encodeA 1 2), (0, encodeA 3 4)]]) ∧
      viewLen (refIndexFrom 0 [[(0, encodeA 1 2), (0, encodeA 3 4)]]) = 1 ∧
      decodeView tagSizeA (refIndexFrom 0 [[(0, encodeA 1 2), (0, encodeA 3 4)]])
          (refData [[(0, encodeA 1 2), (0, encodeA 3 4)]])
        = some [[(0, encodeA 1 2), (0, encodeA 3 4)]]) ∧
    refIndexFrom 0 [[(0, encodeA 1 2), (0, encodeA 3 4)]] = [0, 10] ∧
    (decodeA (encodeA 1 2), decodeA (encodeA 3 4)) = ((1, 2), (3, 4)) := by
  have h := C1_round_trip tagSizeA 8 [[(0, encodeA 1 2), (0, encodeA 3 4)]]
    (by unfold WFBuckets; decide)
  exact ⟨⟨by unfold WFBuckets; decide, h.1, h.2.1, h.2.2⟩, by decide, by decide⟩

theorem grow_written (pad : Nat) (s : MVState) (hf : s.sink.failNext = false) :
    (grow pad s).1.sink.written
      = s.sink.written
          ++ (if s.data.length > HWM then s.data.take (s.data.length - pad) else []) := by
  by_cases hcond : s.data.length > HWM
  · have h1 : grow pad s
        = (add_to_index pad
            { index := s.index, data := List.replicate pad 0,
              sink := ⟨s.sink.written ++ s.data.take (s.data.length - pad), false⟩,
              size_flushed := s.size_flushed + (s.data.length - pad) }, Except.ok ()) := by
      rw [grow, growWith, if_pos hcond, flush_eq pad s hf]
    rw [h1, if_pos hcond]
    rfl
  · have h1 : grow pad s = (add_to_index pad s, Except.ok ()) := by
      rw [grow, growWith, if_neg hcond]
    rw [h1, if_neg hcond]
    simp [add_to_index]

/-- C4 (amended): a call to `grow` triggers a flush to storage if and only if the whole
in-memory buffer — logical payload plus the trailing padding region, which is what
`data.len()` measures — exceeds 32 MiB, equivalently iff the logical payload exceeds
32 MiB minus the padding size; otherwise `grow` performs no write to the data sink. -/
theorem C4_grow_flush_condition (pad : Nat) (s : MVState) (hf : s.sink.failNext = false) :
    (grow pad s).1.sink.written
      = s.sink.written
          ++ (if s.data.length > HWM then s.data.take (s.data.length - pad) else []) :=
  grow_written pad s hf

/-- Witness for C4's amended statement at a concrete writer state below the
threshold: `grow` performs no storage write. -/
theorem C4_grow_flush_condition_witness :
    (Sink.mk [9] false).failNext = false ∧
    (grow 2 (MVState.mk [] [1, 2, 0, 0] ⟨[9], false⟩ 0)).1.sink.written
      = [9] ++ (if ([1, 2, 0, 0] : List Nat).length > HWM
          then ([1, 2, 0, 0] : List Nat).take (([1, 2, 0, 0] : List Nat).length - 2)
          else []) :=
  ⟨rfl, C4_grow_flush_condition 2 (MVState.mk [] [1, 2, 0, 0] ⟨[9], false⟩ 0) rfl⟩

/-- Counterexample to C4 as stated: with padding size 8, after one `grow` and 8388608
records of 4 encoded bytes each, the logical payload is exactly 32 MiB — it does NOT
exceed 32 MiB — and no flush has happened yet; nevertheless the next `grow` call does
write the buffer to storage, because the source compares the whole buffer length,
padding included (32 MiB + 8 bytes here), against the 32 MiB threshold. -/
theorem C4_counterexample :
    (runOps 8 HWM (new 8)
        (WOp.grow :: List.replicate 8388608 (WOp.put 0 [0, 0, 0]))).1.data.length - 8
      = HWM ∧
    (runOps 8 HWM (new 8)
        (WOp.grow :: List.replicate 8388608 (WOp.put 0 [0, 0, 0]))).1.sink.written = [] ∧
    (grow 8 (runOps 8 HWM (new 8)
        (WOp.grow :: List.replicate 8388608 (WOp.put 0 [0, 0, 0]))).1).1.sink.written
      ≠ [] := by
  have hg : growWith 8 HWM (new 8)
      = (MVState.mk [0] (List.replicate 8 0) ⟨[], false⟩ 0, Except.ok ()) := by
    rw [growWith, if_neg (by simp [new, HWM])]
    simp [add_to_index, new]
  have hstep : step 8 HWM (new 8) WOp.grow
      = (MVState.mk [0] (List.replicate 8 0) ⟨[], false⟩ 0, Except.ok ()) := hg
  have hstate : (runOps 8 HWM (new 8)
        (WOp.grow :: List.replicate 8388608 (WOp.put 0 [0, 0, 0]))).1
      = (addRecord 8 0 [0, 0, 0])^[8388608]
          (MVState.mk [0] (List.replicate 8 0) ⟨[], false⟩ 0) := by
    rw [runOps_cons_ok 8 HWM (new 8) _ WOp.grow _ hstep, runOps_puts]
  obtain ⟨hlen, hsink, hsz⟩ := addRecord_iterate_facts 8 0 [0, 0, 0] 8388608
    (MVState.mk [0] (List.replicate 8 0) ⟨[], false⟩ 0) (by simp)
  rw [hstate]
  set T : MVState := (addRecord 8 0 [0, 0, 0])^[8388608]
      (MVState.mk [0] (List.replicate 8 0) ⟨[], false⟩ 0) with hT
  have hlen2 : T.data.length = 33554440 := by
    rw [hlen]
    simp
  have hsink2 : T.sink = Sink.mk [] false := hsink
  refine ⟨?_, ?_, ?_⟩
  · rw [hlen2]
    simp [HWM]
  · rw [hsink2]
  · have hf : T.sink.failNext = false := by rw [hsink2]
    have hcond : T.data.length > HWM := by
      rw [hlen2]
      simp [HWM]
    have hwr := grow_written 8 T hf
    rw [if_pos hcond] at hwr
    have hW : (grow 8 T).1.sink.written = T.data.take (T.data.length - 8) := by
      rw [hwr, hsink2]
      exact List.nil_append _
    rw [hW]
    have hpos : 0 < (T.data.take (T.data.length - 8)).length := by
      rw [length_take_sub, hlen2]
      simp
    intro hc
    rw [hc] at hpos
    simp at hpos

/-- C8: in every writer execution (any API-respecting interleaving of `grow` calls,
record appends and flushes, ended by a final `close`), the sequence of offset entries
of the finalized index is non-decreasing and its first entry is `0`. -/
theorem C8_index_invariant (pad : Nat) (ops : List WOp)
    (hops : noPutBeforeGrow ops = true) (idx d : List Nat)
    (hclose : close pad (runOps pad HWM (new pad) ops).1 = Except.ok (idx, d)) :
    idx.Chain' (· ≤ ·) ∧ idx.head? = some 0 := by
  rw [run_close_eq] at hclose
  simp only [Except.ok.injEq, Prod.mk.injEq] at hclose
  obtain ⟨hidx, hd⟩ := hclose
  subst hidx
  subst hd
  obtain ⟨hok, hinv, habs, hidxs, hle⟩ := runOps_spec pad HWM ops (new pad) (Inv_new pad)
  obtain ⟨hinv2, -, hidx2, -⟩ := add_to_index_spec pad _ hinv
  have hchain := hinv2.2.2.2.1
  rw [hidx2] at hchain
  have hs1 : (runOps pad HWM (new pad) ops).1.index = opsIndex 0 ops := by
    rw [hidxs]
    simp [new, logicalEnd]
  have hs2 : logicalEnd pad (runOps pad HWM (new pad) ops).1 = (opsData ops).length := by
    rw [hle]
    simp [logicalEnd, new]
  rw [hs1, hs2] at hchain
  refine ⟨hchain, ?_⟩
  rcases noPut_head ops hops 0 with ⟨hdata0, hidx0⟩ | hhead
  · rw [hidx0, hdata0]
    rfl
  · cases hoi : opsIndex 0 ops with
    | nil =>
        rw [hoi] at hhead
        simp at hhead
    | cons a l =>
        rw [hoi] at hhead
        simp at hhead
        simp [hoi, hhead]

/-- Witness for C8 at a concrete three-operation run. -/
theorem C8_index_invariant_witness :
    noPutBeforeGrow [WOp.grow, WOp.put 0 [1], WOp.grow] = true ∧
    (List.Chain' (· ≤ ·) [0, 2, 2] ∧ ([0, 2, 2] : List Nat).head? = some 0) :=
  ⟨rfl, C8_index_invariant 2 [WOp.grow, WOp.put 0 [1], WOp.grow] rfl [0, 2, 2] [0, 1] rfl⟩

end Flatdata
